import Mathlib

/-
Verification of the directory-dump tool (src/dump.cpp).

Strings are modelled as `List Char`, file bytes as `List Nat` (the value of
the C++ `unsigned char`), and the results of fallible I/O operations
(opening a file, reading a .gitignore) as `Option` values: `none` models an
open/read that fails, `some v` an operation that yields `v`.
-/

namespace Dump

/-! ## Pattern matcher (src/dump.cpp, `wildcardMatch`, lines 35-68)

The C++ function fills a DP table `dp[i][j]` = "str prefix of length i
matches pattern prefix of length j".  `wdp s p i j` computes exactly the
entry `dp[i][j]` of that table:
  - `dp[0][0] = true` (line 43);
  - row 0 (lines 46-50): `dp[0][j] = dp[0][j-1]` when `pattern[j-1] = '*'`,
    otherwise it keeps its initial value `false`;
  - column 0 for `i >= 1` keeps its initial value `false` (line 40);
  - the general entry (lines 52-65): for `'*'`,
    `dp[i][j] = dp[i][j-1] || dp[i-1][j]`; for `'?'` or an equal literal,
    `dp[i][j] = dp[i-1][j-1]`; otherwise `false`. -/
def wdp (s p : List Char) : Nat → Nat → Bool
  | 0, 0 => true
  | 0, j + 1 =>
    if p[j]? = some '*' then wdp s p 0 j else false
  | _ + 1, 0 => false
  | i + 1, j + 1 =>
    match p[j]? with
    | some c =>
      if c = '*' then wdp s p (i + 1) j || wdp s p i (j + 1)
      else if c = '?' ∨ s[i]? = some c then wdp s p i j
      else false
    | none => false
termination_by i j => (i, j)

/-- The C++ `wildcardMatch` (lines 35-68): an empty pattern matches only an
empty string (line 37); otherwise the answer is the DP table entry
`dp[str.size()][pattern.size()]` (line 67). -/
def wildcardMatch (s p : List Char) : Bool :=
  if p.isEmpty then s.isEmpty
  else wdp s p s.length p.length

/-- The matching semantics as the specification states them: an empty
pattern matches only the empty text; a pattern character other than `'*'`
consumes exactly one text character, which is arbitrary when the pattern
character is `'?'` and must be equal to it otherwise; `'*'` matches zero
(`starSkip`) or more (`starCons`) arbitrary characters. -/
inductive Matches : List Char → List Char → Prop where
  | nil : Matches [] []
  | one {t p : List Char} (c c' : Char) (hstar : c' ≠ '*')
      (hm : c' = '?' ∨ c' = c) (h : Matches t p) : Matches (c :: t) (c' :: p)
  | starSkip {t p : List Char} (h : Matches t p) : Matches t ('*' :: p)
  | starCons {t p : List Char} (c : Char) (h : Matches t ('*' :: p)) :
      Matches (c :: t) ('*' :: p)

/-! ## matchesAnyPattern (src/dump.cpp, lines 73-80) -/

/-- The C++ `matchesAnyPattern`: loop over the patterns, return `true` on
the first one that `wildcardMatch` accepts, `false` if none does. -/
def matchesAnyPattern (filename : List Char) : List (List Char) → Bool
  | [] => false
  | pat :: rest =>
    if wildcardMatch filename pat then true else matchesAnyPattern filename rest

/-! ## Text classifier (src/dump.cpp, `isTextFile`, lines 86-112)

The input models the outcome of opening the file and reading up to
`CHUNK_SIZE = 1024` bytes: `none` when `fin.is_open()` is false, and
`some bytes` with the whole byte content of the file otherwise (the source
reads at most 1024 of them; `List.take 1024` reproduces the `bytesRead`
bound). -/
def isTextFile (openResult : Option (List Nat)) : Bool :=
  match openResult with
  | none => false
  | some bytes =>
    (bytes.take 1024).all fun c =>
      if c = 0 then false
      else if c < 9 ∨ (13 < c ∧ c < 32) then false
      else true

/-! ### Inversion and append lemmas for `Matches` -/

lemma matches_nil_right {t : List Char} : Matches t [] ↔ t = [] := by
  constructor
  · intro h
    cases h
    rfl
  · rintro rfl
    exact Matches.nil

lemma matches_nil_left {p : List Char} : Matches [] p ↔ ∀ c ∈ p, c = '*' := by
  induction p with
  | nil => simp [Matches.nil]
  | cons c p ih =>
    constructor
    · intro h
      cases h with
      | starSkip h => simpa using ih.mp h
    · intro h
      simp only [List.mem_cons, forall_eq_or_imp] at h
      exact h.1 ▸ Matches.starSkip (ih.mpr h.2)

lemma matches_star_singleton (t : List Char) : Matches t ['*'] := by
  induction t with
  | nil => exact Matches.starSkip Matches.nil
  | cons c t ih => exact Matches.starCons c ih

lemma Matches.append_star {t p : List Char} (h : Matches t p) :
    Matches t (p ++ ['*']) := by
  induction h with
  | nil => exact Matches.starSkip Matches.nil
  | one c c' hstar hm _ ih => exact Matches.one c c' hstar hm ih
  | starSkip _ ih => exact Matches.starSkip ih
  | starCons c _ ih => exact Matches.starCons c ih

lemma matches_snoc_star_aux {t q : List Char} (h : Matches t q) :
    ∀ p : List Char, q = p ++ ['*'] → ∀ c, Matches (t ++ [c]) (p ++ ['*']) := by
  induction h with
  | nil =>
    intro p hp
    exact absurd hp.symm (by simp)
  | one c₀ c' hstar hm _ ih =>
    intro p hp c
    cases p with
    | nil => simp at hp; exact absurd hp.1 hstar
    | cons p₀ p' =>
      simp only [List.cons_append, List.cons.injEq] at hp
      exact hp.1 ▸ Matches.one c₀ c' hstar hm (ih p' hp.2 c)
  | starSkip h ih =>
    intro p hp c
    cases p with
    | nil =>
      simp only [List.nil_append, List.cons.injEq] at hp
      obtain ⟨-, rfl⟩ := hp
      rw [matches_nil_right.mp h]
      exact matches_star_singleton [c]
    | cons p₀ p' =>
      simp only [List.cons_append, List.cons.injEq] at hp
      obtain ⟨rfl, hp2⟩ := hp
      exact Matches.starSkip (ih p' hp2 c)
  | starCons c₀ h ih =>
    intro p hp c
    cases p with
    | nil => exact matches_star_singleton _
    | cons p₀ p' =>
      simp only [List.cons_append, List.cons.injEq] at hp
      obtain ⟨rfl, hp2⟩ := hp
      exact Matches.starCons c₀ (ih ('*' :: p') (by rw [hp2]; rfl) c)

lemma Matches.snoc_star {t p : List Char} (c : Char) (h : Matches t (p ++ ['*'])) :
    Matches (t ++ [c]) (p ++ ['*']) :=
  matches_snoc_star_aux h p rfl c

lemma matches_star_extend {t1 p : List Char} (h : Matches t1 (p ++ ['*'])) :
    ∀ t2, Matches (t1 ++ t2) (p ++ ['*']) := by
  intro t2
  induction t2 generalizing t1 with
  | nil => simpa using h
  | cons c t2 ih =>
    have h' := ih (Matches.snoc_star c h)
    simpa using h'

lemma matches_append_star_forward {t q : List Char} (h : Matches t q) :
    ∀ p : List Char, q = p ++ ['*'] → ∃ n ≤ t.length, Matches (t.take n) p := by
  induction h with
  | nil =>
    intro p hp
    exact absurd hp.symm (by simp)
  | one c₀ c' hstar hm _ ih =>
    intro p hp
    cases p with
    | nil => simp at hp; exact absurd hp.1 hstar
    | cons p₀ p' =>
      simp only [List.cons_append, List.cons.injEq] at hp
      obtain ⟨rfl, hp2⟩ := hp
      obtain ⟨n, hn, hmn⟩ := ih p' hp2
      exact ⟨n + 1, Nat.succ_le_succ hn, Matches.one c₀ c' hstar hm hmn⟩
  | starSkip h ih =>
    intro p hp
    cases p with
    | nil =>
      simp only [List.nil_append, List.cons.injEq] at hp
      obtain ⟨-, rfl⟩ := hp
      exact ⟨0, Nat.zero_le _, Matches.nil⟩
    | cons p₀ p' =>
      simp only [List.cons_append, List.cons.injEq] at hp
      obtain ⟨rfl, hp2⟩ := hp
      obtain ⟨n, hn, hmn⟩ := ih p' hp2
      exact ⟨n, hn, Matches.starSkip hmn⟩
  | starCons c₀ h ih =>
    intro p hp
    cases p with
    | nil => exact ⟨0, Nat.zero_le _, Matches.nil⟩
    | cons p₀ p' =>
      simp only [List.cons_append, List.cons.injEq] at hp
      obtain ⟨rfl, hp2⟩ := hp
      obtain ⟨n, hn, hmn⟩ := ih ('*' :: p') (by rw [hp2]; rfl)
      exact ⟨n + 1, Nat.succ_le_succ hn, Matches.starCons c₀ hmn⟩

lemma matches_append_star_iff {t p : List Char} :
    Matches t (p ++ ['*']) ↔ ∃ n ≤ t.length, Matches (t.take n) p := by
  constructor
  · intro h
    exact matches_append_star_forward h p rfl
  · rintro ⟨n, hn, hmn⟩
    have h1 : Matches (t.take n) (p ++ ['*']) := hmn.append_star
    have h2 := matches_star_extend h1 (t.drop n)
    rwa [List.take_append_drop] at h2

lemma matches_snoc_of {c c' : Char} (hstar : c' ≠ '*') (hm : c' = '?' ∨ c' = c)
    {t p : List Char} (h : Matches t p) : Matches (t ++ [c]) (p ++ [c']) := by
  induction h with
  | nil => exact Matches.one c c' hstar hm Matches.nil
  | one c₀ c'' hstar₀ hm₀ _ ih => exact Matches.one c₀ c'' hstar₀ hm₀ ih
  | starSkip _ ih => exact Matches.starSkip ih
  | starCons c₀ _ ih => exact Matches.starCons c₀ ih

lemma matches_snoc_forward {c c' : Char} (hstar : c' ≠ '*') {ts qs : List Char}
    (h : Matches ts qs) : ∀ t p : List Char, ts = t ++ [c] → qs = p ++ [c'] →
    (c' = '?' ∨ c' = c) ∧ Matches t p := by
  induction h with
  | nil =>
    intro t p ht _
    exact absurd ht.symm (by simp)
  | one c₀ c'' hstar₀ hm₀ h ih =>
    intro t p ht hp
    cases p with
    | nil =>
      simp only [List.nil_append, List.cons.injEq] at hp
      obtain ⟨rfl, rfl⟩ := hp
      rw [matches_nil_right.mp h] at ht
      cases t with
      | nil =>
        simp only [List.nil_append, List.cons.injEq] at ht
        exact ⟨ht.1 ▸ hm₀, Matches.nil⟩
      | cons t₀ t' => simp at ht
    | cons p₀ p' =>
      simp only [List.cons_append, List.cons.injEq] at hp
      obtain ⟨rfl, hp2⟩ := hp
      cases t with
      | nil =>
        simp only [List.nil_append, List.cons.injEq] at ht
        rw [ht.2] at h
        have hall := matches_nil_left.mp (hp2 ▸ h)
        exact absurd (hall c' (by simp)) hstar
      | cons t₀ t' =>
        simp only [List.cons_append, List.cons.injEq] at ht
        obtain ⟨rfl, ht2⟩ := ht
        obtain ⟨hm', h'⟩ := ih t' p' ht2 hp2
        exact ⟨hm', Matches.one c₀ c'' hstar₀ hm₀ h'⟩
  | starSkip h ih =>
    intro t p ht hp
    cases p with
    | nil => simp at hp; exact absurd hp.1.symm hstar
    | cons p₀ p' =>
      simp only [List.cons_append, List.cons.injEq] at hp
      obtain ⟨rfl, hp2⟩ := hp
      obtain ⟨hm', h'⟩ := ih t p' ht hp2
      exact ⟨hm', Matches.starSkip h'⟩
  | starCons c₀ h ih =>
    intro t p ht hp
    cases p with
    | nil => simp at hp; exact absurd hp.1.symm hstar
    | cons p₀ p' =>
      simp only [List.cons_append, List.cons.injEq] at hp
      obtain ⟨rfl, hp2⟩ := hp
      cases t with
      | nil =>
        simp only [List.nil_append, List.cons.injEq] at ht
        rw [ht.2, hp2] at h
        have hall := matches_nil_left.mp h
        exact absurd (hall c' (by simp)) hstar
      | cons t₀ t' =>
        simp only [List.cons_append, List.cons.injEq] at ht
        obtain ⟨rfl, ht2⟩ := ht
        obtain ⟨hm', h'⟩ := ih t' ('*' :: p') ht2 (by rw [hp2]; rfl)
        exact ⟨hm', Matches.starCons c₀ h'⟩

lemma matches_snoc_iff {t p : List Char} {c c' : Char} (hstar : c' ≠ '*') :
    Matches (t ++ [c]) (p ++ [c']) ↔ (c' = '?' ∨ c' = c) ∧ Matches t p := by
  constructor
  · intro h
    exact matches_snoc_forward hstar h t p rfl rfl
  · rintro ⟨hm, h⟩
    exact matches_snoc_of hstar hm h

lemma matches_take_star_iff (s q : List Char) (k : Nat) (hk : k ≤ s.length) :
    Matches (s.take k) (q ++ ['*']) ↔ ∃ n ≤ k, Matches (s.take n) q := by
  rw [matches_append_star_iff]
  have hlen : (s.take k).length = k := by rw [List.length_take]; omega
  constructor
  · rintro ⟨n, hn, h⟩
    rw [hlen] at hn
    rw [List.take_take, Nat.min_eq_left hn] at h
    exact ⟨n, hn, h⟩
  · rintro ⟨n, hn, h⟩
    refine ⟨n, ?_, ?_⟩
    · rw [hlen]; exact hn
    · rwa [List.take_take, Nat.min_eq_left hn]

/-! ### The DP table computes the matching relation on prefixes -/

lemma wdp_zero_succ (s p : List Char) (j : Nat) :
    wdp s p 0 (j + 1) = if p[j]? = some '*' then wdp s p 0 j else false := by
  simp only [wdp]

lemma wdp_succ_zero (s p : List Char) (i : Nat) : wdp s p (i + 1) 0 = false := by
  simp only [wdp]

lemma wdp_succ_succ (s p : List Char) (i j : Nat) (c : Char) (hp : p[j]? = some c) :
    wdp s p (i + 1) (j + 1) =
      if c = '*' then wdp s p (i + 1) j || wdp s p i (j + 1)
      else if c = '?' ∨ s[i]? = some c then wdp s p i j
      else false := by
  simp only [wdp, hp]

lemma wdp_iff (s p : List Char) :
    ∀ i, i ≤ s.length → ∀ j, j ≤ p.length →
      (wdp s p i j = true ↔ Matches (s.take i) (p.take j)) := by
  intro i
  induction i with
  | zero =>
    intro _ j
    induction j with
    | zero =>
      intro _
      simpa [wdp] using Matches.nil
    | succ j ihj =>
      intro hj
      have hj' : j < p.length := hj
      have hget : p[j]? = some p[j] := List.getElem?_eq_getElem hj'
      have htake : p.take (j + 1) = p.take j ++ [p[j]] := by
        rw [List.take_succ, hget]; rfl
      have ihj' := ihj (Nat.le_of_lt hj')
      simp only [List.take_zero] at ihj' ⊢
      rw [htake, wdp_zero_succ, hget]
      simp only [Option.some.injEq]
      by_cases hc : p[j] = '*'
      · rw [if_pos hc, hc, ihj', matches_nil_left, matches_nil_left]
        constructor
        · intro h c hc'
          rcases List.mem_append.mp hc' with h1 | h1
          · exact h c h1
          · simpa using h1
        · intro h c hc'
          exact h c (List.mem_append.mpr (Or.inl hc'))
      · rw [if_neg hc]
        simp only [Bool.false_eq_true, false_iff]
        intro hcon
        refine hc (matches_nil_left.mp hcon p[j] ?_)
        exact List.mem_append.mpr (Or.inr (by simp))
  | succ i ihi =>
    intro hi j
    induction j with
    | zero =>
      intro _
      simp only [wdp_succ_zero, List.take_zero, matches_nil_right,
        Bool.false_eq_true, false_iff]
      intro hcon
      rw [List.take_eq_nil_iff] at hcon
      rcases hcon with h | h
      · exact Nat.succ_ne_zero i h
      · rw [h] at hi
        simp at hi
    | succ j ihj =>
      intro hj
      have hj' : j < p.length := hj
      have hi' : i < s.length := hi
      have hpget : p[j]? = some p[j] := List.getElem?_eq_getElem hj'
      have hsget : s[i]? = some s[i] := List.getElem?_eq_getElem hi'
      have hptake : p.take (j + 1) = p.take j ++ [p[j]] := by
        rw [List.take_succ, hpget]; rfl
      have hstake : s.take (i + 1) = s.take i ++ [s[i]] := by
        rw [List.take_succ, hsget]; rfl
      rw [wdp_succ_succ s p i j p[j] hpget, hptake]
      by_cases hstar : p[j] = '*'
      · rw [if_pos hstar, hstar, Bool.or_eq_true,
          matches_take_star_iff s (p.take j) (i + 1) hi,
          ihj (Nat.le_of_lt hj'),
          ihi (Nat.le_of_lt hi') (j + 1) hj, hptake, hstar,
          matches_take_star_iff s (p.take j) i (Nat.le_of_lt hi')]
        constructor
        · rintro (h | ⟨n, hn, h⟩)
          · exact ⟨i + 1, Nat.le_refl _, h⟩
          · exact ⟨n, Nat.le_succ_of_le hn, h⟩
        · rintro ⟨n, hn, h⟩
          rcases Nat.lt_or_ge n (i + 1) with hlt | hge
          · exact Or.inr ⟨n, by omega, h⟩
          · have hn' : n = i + 1 := by omega
            exact Or.inl (hn' ▸ h)
      · rw [if_neg hstar]
        by_cases hq : p[j] = '?' ∨ s[i]? = some p[j]
        · rw [if_pos hq, ihi (Nat.le_of_lt hi') j (Nat.le_of_lt hj'),
            hstake, matches_snoc_iff hstar]
          have hm : p[j] = '?' ∨ p[j] = s[i] := by
            rcases hq with h | h
            · exact Or.inl h
            · rw [hsget, Option.some.injEq] at h
              exact Or.inr h.symm
          simp [hm]
        · rw [if_neg hq, hstake, matches_snoc_iff hstar]
          simp only [Bool.false_eq_true, false_iff]
          rintro ⟨hm, -⟩
          apply hq
          rcases hm with h | h
          · exact Or.inl h
          · rw [hsget, Option.some.injEq]
            exact Or.inr h.symm

/-! ## Ignore-set builder (src/dump.cpp, `loadGitignorePatterns`, lines 119-137) -/

/-- The leading-slash strip of lines 132-134: when the line starts with
`'/'`, `line.erase(line.begin())` removes that single character.  (The
guard `!line.empty()` of line 132 is subsumed by the match.) -/
def stripLeadingSlash (line : List Char) : List Char :=
  match line with
  | '/' :: rest => rest
  | _ => line

/-- The `getline` loop of `loadGitignorePatterns` (lines 126-136): a line
that is empty or starts with `'#'` is skipped (line 129), every other line
is appended after a leading-slash strip (lines 132-135). -/
def loadGitignoreLines : List (List Char) → List (List Char) → List (List Char)
  | [], patterns => patterns
  | line :: rest, patterns =>
    if line = [] ∨ line.head? = some '#' then loadGitignoreLines rest patterns
    else loadGitignoreLines rest (patterns ++ [stripLeadingSlash line])

/-- `loadGitignorePatterns` (lines 119-137).  The `Option` input models the
outcome of finding and opening `<root>/.gitignore`: `none` when the file
does not exist (line 121) or cannot be opened (line 124), both early
returns that leave `patterns` unchanged; `some ls` a readable file whose
lines are `ls`. -/
def loadGitignorePatterns (gitignore : Option (List (List Char)))
    (patterns : List (List Char)) : List (List Char) :=
  match gitignore with
  | none => patterns
  | some ls => loadGitignoreLines ls patterns

/-- Pattern-set construction as `main` performs it (lines 201, 212, 230):
the `-i` CLI patterns are accumulated first, then `loadGitignorePatterns`
appends the file-sourced ones to them. -/
def buildPatternSet (cliPatterns : List (List Char))
    (gitignore : Option (List (List Char))) : List (List Char) :=
  loadGitignorePatterns gitignore cliPatterns

/-- The contribution of a single .gitignore line as the specification words
it (for comparison with the source-derived `loadGitignoreLines`): lines
that are empty or start with `'#'` contribute nothing; every other line
contributes itself with a single leading `'/'` removed when present. -/
def specLineContribution (line : List Char) : Option (List Char) :=
  if line = [] ∨ line.head? = some '#' then none
  else some (stripLeadingSlash line)

/-! ## Tree walker / emitter (src/dump.cpp, `dumpDirectory`, lines 145-184)

A filesystem subtree is modelled as an `FSEntry`.  A file carries the
outcomes of its two opens: `sample` is what the classifier's open plus
1024-byte read yields (`none` when that open fails, line 89), `content`
what the content-read open yields (`none` when it fails, lines 174-177). -/
inductive FSEntry where
  | file (name : String) (sample : Option (List Nat)) (content : Option String)
  | dir (name : String) (children : List FSEntry)

/-- Relative paths as `fs::relative(entry.path(), directory).string()`
produces them for entries strictly below the root: the path components
from the root down, joined with `'/'`. -/
def joinRel (relDir name : String) : String :=
  if relDir = "" then name else relDir ++ "/" ++ name

mutual
/-- What `dumpDirectory`'s loop body (lines 146-183) emits for one entry
whose parent directory lies at relative path `relDir` below the root.
A directory whose bare name matches the patterns is pruned: recursion into
it is disabled and nothing is emitted for anything below it (lines
148-154); otherwise its children are traversed.  A file is skipped when
its relative path or bare name matches (lines 159-163), when the
classifier refuses it (lines 166-168), or when the content open fails
(lines 174-177); otherwise its block is written (lines 180-182). -/
def dumpEntry (patterns : List (List Char)) (relDir : String) :
    FSEntry → String
  | .file name sample content =>
    let relPath := joinRel relDir name
    if matchesAnyPattern relPath.data patterns
        || matchesAnyPattern name.data patterns then ""
    else if !isTextFile sample then ""
    else
      match content with
      | none => ""
      | some c => "<file path=\"" ++ relPath ++ "\">\n" ++ c ++ "\n</file>\n\n"
  | .dir name children =>
    if matchesAnyPattern name.data patterns then ""
    else dumpList patterns (joinRel relDir name) children

/-- The emitted output of a list of sibling entries, in iteration order. -/
def dumpList (patterns : List (List Char)) (relDir : String) :
    List FSEntry → String
  | [] => ""
  | e :: es => dumpEntry patterns relDir e ++ dumpList patterns relDir es
end

/-- `dumpDirectory root patterns` (lines 145-184): the root's own name is
not an entry of the iteration, so traversal starts from its children with
an empty relative prefix. -/
def dumpDirectory (rootChildren : List FSEntry)
    (patterns : List (List Char)) : String :=
  dumpList patterns "" rootChildren

/-! ## Argument parsing (src/dump.cpp, `main`, lines 199-235) -/

/-- Outcome of the argument-parsing loop of `main` (lines 204-221):
`help` models the `printUsage` plus `return 0` of lines 206-208;
`usageError arg` models the final `else` branch (lines 213-220), which
prints `Unrecognized option: arg` to `stderr`, prints the usage text and
returns 1; `ok dir pats` models falling out of the loop with the
accumulated target directory and `-i` patterns. -/
inductive ParseOutcome where
  | help
  | usageError (arg : String)
  | ok (dir : Option String) (pats : List String)
deriving DecidableEq

/-- The parsing loop itself.  Note that the source guards the two
value-taking flags with `i + 1 < argc`; when such a flag is the last
argument that conjunction is false and control falls through to the final
`else` branch, so the `[]` cases below produce `usageError`.  When a value
is present it is consumed unconditionally (`argv[++i]`), whatever it looks
like. -/
def parseArgs (dir : Option String) (pats : List String) :
    List String → ParseOutcome
  | [] => .ok dir pats
  | arg :: rest =>
    if arg = "-h" ∨ arg = "--help" then .help
    else if arg = "-d" ∨ arg = "--dir" then
      match rest with
      | v :: rest' => parseArgs (some v) pats rest'
      | [] => .usageError arg
    else if arg = "-i" ∨ arg = "--ignore" then
      match rest with
      | v :: rest' => parseArgs dir (pats ++ [v]) rest'
      | [] => .usageError arg
    else .usageError arg

/-- What `main` does with the parse outcome (lines 206-235), as the triple
(exit code, wrote to stderr, performed the directory scan): help exits 0
before any scan; a usage error prints to stderr and exits 1 before the
directory check; otherwise the directory check (lines 224-227) either
fails with an error on stderr and exit code 1, or the scan runs and `main`
returns 0. -/
def mainOutcome (args : List String) (dirValid : Bool) : Nat × Bool × Bool :=
  match parseArgs none [] args with
  | .help => (0, false, false)
  | .usageError _ => (1, true, false)
  | .ok _ _ => if dirValid then (0, false, true) else (1, true, false)

/-! ## Helper lemmas shared by the claim theorems -/

lemma matchesAnyPattern_eq_any (name : List Char) (ps : List (List Char)) :
    matchesAnyPattern name ps = ps.any fun p => wildcardMatch name p := by
  induction ps with
  | nil => rfl
  | cons q qs ih =>
    simp only [matchesAnyPattern, List.any_cons]
    by_cases h : wildcardMatch name q = true
    · simp [h]
    · simp [h, ih]

lemma loadGitignoreLines_eq (lines : List (List Char)) :
    ∀ pats, loadGitignoreLines lines pats
      = pats ++ lines.filterMap specLineContribution := by
  induction lines with
  | nil => intro pats; simp [loadGitignoreLines]
  | cons l rest ih =>
    intro pats
    by_cases h : l = [] ∨ l.head? = some '#'
    · simp [loadGitignoreLines, h, specLineContribution, ih]
    · simp [loadGitignoreLines, h, specLineContribution, ih]

lemma parseArgs_append :
    ∀ (args l : List String) (dir : Option String) (pats : List String)
      (dir' : Option String) (pats' : List String),
      parseArgs dir pats args = ParseOutcome.ok dir' pats' →
      parseArgs dir pats (args ++ l) = parseArgs dir' pats' l
  | [], l, dir, pats, dir', pats', h => by
    simp only [parseArgs, ParseOutcome.ok.injEq] at h
    obtain ⟨rfl, rfl⟩ := h
    rfl
  | [arg], l, dir, pats, dir', pats', h => by
    simp only [parseArgs] at h
    by_cases h1 : arg = "-h" ∨ arg = "--help"
    · rw [if_pos h1] at h; exact absurd h (by simp)
    · rw [if_neg h1] at h
      by_cases h2 : arg = "-d" ∨ arg = "--dir"
      · rw [if_pos h2] at h; exact absurd h (by simp)
      · rw [if_neg h2] at h
        by_cases h3 : arg = "-i" ∨ arg = "--ignore"
        · rw [if_pos h3] at h; exact absurd h (by simp)
        · rw [if_neg h3] at h; exact absurd h (by simp)
  | arg :: v :: rest, l, dir, pats, dir', pats', h => by
    simp only [parseArgs] at h
    by_cases h1 : arg = "-h" ∨ arg = "--help"
    · rw [if_pos h1] at h; exact absurd h (by simp)
    · rw [if_neg h1] at h
      by_cases h2 : arg = "-d" ∨ arg = "--dir"
      · rw [if_pos h2] at h
        have hrec := parseArgs_append rest l (some v) pats dir' pats' h
        show parseArgs dir pats (arg :: v :: (rest ++ l)) = parseArgs dir' pats' l
        simp only [parseArgs, if_neg h1, if_pos h2]
        exact hrec
      · rw [if_neg h2] at h
        by_cases h3 : arg = "-i" ∨ arg = "--ignore"
        · rw [if_pos h3] at h
          have hrec := parseArgs_append rest l dir (pats ++ [v]) dir' pats' h
          show parseArgs dir pats (arg :: v :: (rest ++ l)) = parseArgs dir' pats' l
          simp only [parseArgs, if_neg h1, if_neg h2, if_pos h3]
          exact hrec
        · rw [if_neg h3] at h; exact absurd h (by simp)

end Dump

namespace Dump

/-- C1: for every text string and pattern string, `wildcardMatch` returns
`true` exactly when the pattern matches the entire text under the
specified semantics (`Matches`): an empty pattern matches only the empty
text, a `'?'` matches exactly one arbitrary character, a `'*'` matches
zero or more arbitrary characters, and every other pattern character
requires exact equality with the text character at its position; there is
no substring or partial matching. -/
theorem claim_C1 (s p : List Char) : wildcardMatch s p = true ↔ Matches s p := by
  unfold wildcardMatch
  by_cases hp : p.isEmpty
  · rw [if_pos hp]
    rw [List.isEmpty_iff] at hp
    subst hp
    rw [matches_nil_right]
    cases s <;> simp
  · rw [if_neg hp]
    have h := wdp_iff s p s.length (Nat.le_refl _) p.length (Nat.le_refl _)
    rwa [List.take_length, List.take_length] at h

/-- C2: `isTextFile` returns `true` exactly when the file opened
successfully and, among the first min(1024, size) bytes, no byte is 0 and
no byte is below 9 or strictly between 13 and 32; moreover an empty file
is classified text and an unopenable file is classified not-text. -/
theorem claim_C2 (r : Option (List Nat)) :
    (isTextFile r = true ↔
      ∃ bytes, r = some bytes ∧
        ∀ c ∈ bytes.take 1024, c ≠ 0 ∧ ¬(c < 9 ∨ (13 < c ∧ c < 32)))
    ∧ isTextFile (some []) = true ∧ isTextFile none = false := by
  refine ⟨?_, rfl, rfl⟩
  cases r with
  | none => simp [isTextFile]
  | some bs =>
    simp only [isTextFile, List.all_eq_true, Option.some.injEq]
    constructor
    · intro h
      refine ⟨bs, rfl, ?_⟩
      intro c hc
      have hcb := h c hc
      by_cases h0 : c = 0
      · simp [h0] at hcb
      · by_cases h1 : c < 9 ∨ (13 < c ∧ c < 32)
        · simp [h0, h1] at hcb
        · exact ⟨h0, h1⟩
    · rintro ⟨bs', rfl, h⟩
      intro c hc
      obtain ⟨h0, h1⟩ := h c hc
      simp [h0, h1]

/-- C5: `buildPatternSet` produces exactly the CLI patterns in
command-line order, followed by the contribution of each .gitignore line
in file order; a line that is empty or starts with `'#'` contributes
nothing, every other line contributes itself with a single leading `'/'`
removed when present. -/
theorem claim_C5 (cli : List (List Char)) (lines : List (List Char)) :
    buildPatternSet cli (some lines)
      = cli ++ lines.filterMap specLineContribution := by
  simp only [buildPatternSet, loadGitignorePatterns]
  exact loadGitignoreLines_eq lines cli

/-- C6: `matchesAnyPattern` returns `true` exactly when at least one
pattern of the list matches the name, and its result is unchanged under
any permutation of the pattern list. -/
theorem claim_C6 (name : List Char) (ps qs : List (List Char))
    (hperm : ps.Perm qs) :
    (matchesAnyPattern name ps = true
      ↔ ∃ p ∈ ps, wildcardMatch name p = true)
    ∧ matchesAnyPattern name ps = matchesAnyPattern name qs := by
  constructor
  · rw [matchesAnyPattern_eq_any, List.any_eq_true]
  · rw [matchesAnyPattern_eq_any, matchesAnyPattern_eq_any, Bool.eq_iff_iff,
      List.any_eq_true, List.any_eq_true]
    constructor
    · rintro ⟨p, hp, hw⟩
      exact ⟨p, hperm.mem_iff.mp hp, hw⟩
    · rintro ⟨p, hp, hw⟩
      exact ⟨p, hperm.mem_iff.mpr hp, hw⟩

/-- Witness for C6 at a concrete permuted pattern list. -/
theorem claim_C6_witness :
    (matchesAnyPattern ['a'] [['a'], ['b']] = true
      ↔ ∃ p ∈ [['a'], ['b']], wildcardMatch ['a'] p = true)
    ∧ matchesAnyPattern ['a'] [['a'], ['b']]
        = matchesAnyPattern ['a'] [['b'], ['a']] :=
  claim_C6 ['a'] [['a'], ['b']] [['b'], ['a']] (List.Perm.swap _ _ _)

/-- C9: a .gitignore line consisting solely of `'/'` is stripped to the
empty string and appended as an empty pattern; the empty pattern matches
only empty text, so appending it never changes the matching outcome for a
non-empty name. -/
theorem claim_C9 (cli pats : List (List Char)) (s : List Char) (hs : s ≠ []) :
    buildPatternSet cli (some [['/']]) = cli ++ [[]]
    ∧ wildcardMatch s [] = false
    ∧ matchesAnyPattern s (pats ++ [[]]) = matchesAnyPattern s pats := by
  have hw : wildcardMatch s [] = false := by
    cases s with
    | nil => exact absurd rfl hs
    | cons c cs => rfl
  refine ⟨?_, hw, ?_⟩
  · simp [buildPatternSet, loadGitignorePatterns, loadGitignoreLines,
      stripLeadingSlash]
  · rw [matchesAnyPattern_eq_any, matchesAnyPattern_eq_any, List.any_append]
    simp [hw]

/-- Witness for C9 at a concrete non-empty name. -/
theorem claim_C9_witness :
    buildPatternSet [['x']] (some [['/']]) = [['x']] ++ [[]]
    ∧ wildcardMatch ['a'] [] = false
    ∧ matchesAnyPattern ['a'] ([['b']] ++ [[]])
        = matchesAnyPattern ['a'] [['b']] :=
  claim_C9 [['x']] [['b']] ['a'] (by decide)

/-- C3: a directory entry whose bare name matches the pattern set is
pruned: whatever its contents are, nothing at all is emitted for it or for
anything below it (the result does not depend on the children, which
models that they are never evaluated). -/
theorem claim_C3 (patterns : List (List Char)) (relDir : String)
    (name : String) (children : List FSEntry)
    (h : matchesAnyPattern name.data patterns = true) :
    dumpEntry patterns relDir (.dir name children) = "" := by
  simp [dumpEntry, h]

/-- Witness for C3: the spec's example, a root containing `build/keep.txt`
scanned with ignore pattern `build`: the directory is pruned, so
`keep.txt` never appears in the output. -/
theorem claim_C3_witness :
    dumpEntry [['b', 'u', 'i', 'l', 'd']] ""
      (FSEntry.dir "build"
        [FSEntry.file "keep.txt" (some [107, 101, 101, 112]) (some "keep")])
      = "" :=
  claim_C3 [['b', 'u', 'i', 'l', 'd']] "" "build"
    [FSEntry.file "keep.txt" (some [107, 101, 101, 112]) (some "keep")]
    (by simp [matchesAnyPattern, wildcardMatch, wdp])

/-- C4: a file entry whose relative path or bare filename matches the
pattern set is skipped entirely, whatever its sample and content are (so
neither is consulted); a surviving file that the classifier deems text is
emitted exactly as the block: opening tag line with the relative path, the
raw content, the closing tag line, and one blank separator line. -/
theorem claim_C4 (patterns : List (List Char)) (relDir name : String)
    (sample : Option (List Nat)) (content : Option String) (c : String) :
    ((matchesAnyPattern (joinRel relDir name).data patterns = true
        ∨ matchesAnyPattern name.data patterns = true) →
      dumpEntry patterns relDir (.file name sample content) = "")
    ∧ (matchesAnyPattern (joinRel relDir name).data patterns = false →
        matchesAnyPattern name.data patterns = false →
        isTextFile sample = true →
        dumpEntry patterns relDir (.file name sample (some c))
          = "<file path=\"" ++ joinRel relDir name ++ "\">\n" ++ c
              ++ "\n</file>\n\n") := by
  constructor
  · rintro (h | h) <;> simp [dumpEntry, h]
  · intro h1 h2 h3
    simp [dumpEntry, h1, h2, h3]

/-- Witness for C4: a matched file is skipped; an unmatched text file is
emitted as its exact block. -/
theorem claim_C4_witness :
    dumpEntry [['a', '.', 't', 'x', 't']] ""
      (FSEntry.file "a.txt" (some [104]) (some "hello")) = ""
    ∧ dumpEntry [['z']] "" (FSEntry.file "a.txt" (some [104]) (some "hello"))
        = "<file path=\"" ++ joinRel "" "a.txt" ++ "\">\n" ++ "hello"
            ++ "\n</file>\n\n" :=
  ⟨(claim_C4 [['a', '.', 't', 'x', 't']] "" "a.txt" (some [104])
      (some "hello") "hello").1
      (Or.inr (by simp [matchesAnyPattern, wildcardMatch, wdp])),
    (claim_C4 [['z']] "" "a.txt" (some [104]) (some "hello") "hello").2
      (by simp [joinRel, matchesAnyPattern, wildcardMatch, wdp])
      (by simp [matchesAnyPattern, wildcardMatch, wdp])
      rfl⟩

/-- C7: skippable I/O failures never abort or surface: an unopenable file
is classified not-text and contributes no output, a file whose content
read fails contributes no output, a missing or unopenable .gitignore
contributes no patterns, and in each case the remaining entries are
processed unchanged. -/
theorem claim_C7 (patterns : List (List Char)) (relDir name : String)
    (sample : Option (List Nat)) (content : Option String)
    (es : List FSEntry) (cli : List (List Char)) :
    isTextFile none = false
    ∧ dumpEntry patterns relDir (.file name none content) = ""
    ∧ dumpEntry patterns relDir (.file name sample none) = ""
    ∧ dumpList patterns relDir (.file name none content :: es)
        = dumpList patterns relDir es
    ∧ dumpList patterns relDir (.file name sample none :: es)
        = dumpList patterns relDir es
    ∧ buildPatternSet cli none = cli := by
  have h1 : dumpEntry patterns relDir (.file name none content) = "" := by
    simp [dumpEntry, isTextFile]
  have h2 : dumpEntry patterns relDir (.file name sample none) = "" := by
    simp [dumpEntry]
  refine ⟨rfl, h1, h2, ?_, ?_, rfl⟩
  · simp [dumpList, h1]
  · simp [dumpList, h2]

/-- C8: when `-d`, `--dir`, `-i` or `--ignore` is the last argument and so
has no following value, the `i + 1 < argc` guard fails and the final
`else` branch runs: an error is printed to stderr and `main` returns 1
before any directory scan. -/
theorem claim_C8 (f : String)
    (hf : f = "-d" ∨ f = "--dir" ∨ f = "-i" ∨ f = "--ignore")
    (args : List String) (dir' : Option String) (pats' : List String)
    (hok : parseArgs none [] args = ParseOutcome.ok dir' pats')
    (dirValid : Bool) :
    parseArgs none [] (args ++ [f]) = ParseOutcome.usageError f
    ∧ mainOutcome (args ++ [f]) dirValid = (1, true, false) := by
  have hstep : parseArgs dir' pats' [f] = ParseOutcome.usageError f := by
    rcases hf with rfl | rfl | rfl | rfl <;> rfl
  have h := parseArgs_append args [f] none [] dir' pats' hok
  rw [hstep] at h
  exact ⟨h, by simp [mainOutcome, h]⟩

/-- Witness for C8: `-d` as the sole (hence last) argument. -/
theorem claim_C8_witness :
    parseArgs none [] ([] ++ ["-d"]) = ParseOutcome.usageError "-d"
    ∧ mainOutcome ([] ++ ["-d"]) true = (1, true, false) :=
  claim_C8 "-d" (Or.inl rfl) [] none [] rfl true

/-- C10: the token after `-d`/`--dir`/`-i`/`--ignore` is consumed
unconditionally as that flag's value, even when it is itself a recognized
flag; in particular `-i --help` adds the literal pattern `--help`, prints
no help text, and the scan still runs. -/
theorem claim_C10 (dir : Option String) (pats : List String) (v : String)
    (rest : List String) :
    parseArgs dir pats ("-i" :: v :: rest) = parseArgs dir (pats ++ [v]) rest
    ∧ parseArgs dir pats ("--ignore" :: v :: rest)
        = parseArgs dir (pats ++ [v]) rest
    ∧ parseArgs dir pats ("-d" :: v :: rest) = parseArgs (some v) pats rest
    ∧ parseArgs dir pats ("--dir" :: v :: rest) = parseArgs (some v) pats rest
    ∧ parseArgs none [] ["-i", "--help"] = ParseOutcome.ok none ["--help"]
    ∧ mainOutcome ["-i", "--help"] true = (0, false, true) :=
  ⟨rfl, rfl, rfl, rfl, rfl, rfl⟩

end Dump
